import Mathlib

/-!
Verification of the filename normalization engine of `asset-codegen-toolkit`.

The development shallowly embeds the two renaming passes:
  * `CleanGenerator.removeFolderNamesFromFilename` / `cleanSingleFile` /
    `processDirectoryRecursive` / `cleanFilenamesInDirectory` /
    `collectAllFolderNames` / `generate` (src/src/generators/CleanGenerator.js,
    with the filesystem abstracted as a per-root directory tree), and
  * `OrganizeGenerator.addFolderStructureToFilename` / `isAlreadyOrganized` /
    `organizeSingleFile` (the organize generator source file).

Strings are embedded as `List Char`.  All the regular expressions built by the
source are literal patterns (every token and the separator are passed through
`escapeRegex`, and no `i` flag is used), so each regex operation is an exact
string operation:
  * `new RegExp('^tok sep', 'g')` replace with `''` removes one leading
    occurrence (the `^` anchor can only match at the start);
  * `new RegExp('sep tok$', 'g')` removes one trailing occurrence;
  * `new RegExp('sep tok sep', 'g')` replace is a leftmost, non-overlapping
    global replacement;
  * `sep{2,}` collapses each maximal run of two or more separators to one;
  * `^sep+|sep+$` trims the leading and the trailing run of separators.
The `separatorChar` configuration value is a single character (its default is
`'-'`), embedded as `Char`.  The `do … while` loop of the source is embedded
with explicit fuel (`length + 1`); every productive iteration strictly shrinks
the string, so this fuel is always sufficient (proved below), and the fuel
form keeps every definition kernel-computable.
-/

/-- A JavaScript string, embedded as its list of characters. -/
abbrev Str := List Char

/-- Notation-free coercion from Lean string literals used in concrete runs. -/
def str (s : String) : Str := s.toList

namespace CleanGen

/-- Pattern 1 of `removeFolderNamesFromFilename`:
`cleanedName.replace(new RegExp('^' + tok + sep, 'g'), '')` — if the stem
starts with `tok ++ [sep]`, that leading occurrence is removed. -/
def stripLeading (tok : Str) (sep : Char) (s : Str) : Str :=
  if (tok ++ [sep]).isPrefixOf s then s.drop (tok.length + 1) else s

/-- Pattern 3 of `removeFolderNamesFromFilename`:
`cleanedName.replace(new RegExp(sep + tok + '$', 'g'), '')` — if the stem
ends with `[sep] ++ tok`, that trailing occurrence is removed. -/
def stripTrailing (tok : Str) (sep : Char) (s : Str) : Str :=
  if ([sep] ++ tok).isSuffixOf s then s.take (s.length - (tok.length + 1)) else s

/-- `String.replace(pattern, replacement)` with a global literal pattern:
leftmost, non-overlapping replacement of every occurrence.  The fuel is the
length of the string; each step consumes at least one character whenever the
pattern is nonempty, so `replaceAll` below is exact. -/
def replaceAllGo (pat rep : Str) : Nat → Str → Str
  | 0, s => s
  | fuel + 1, s =>
    if pat ≠ [] ∧ pat.isPrefixOf s then
      rep ++ replaceAllGo pat rep fuel (s.drop pat.length)
    else
      match s with
      | [] => []
      | c :: s' => c :: replaceAllGo pat rep fuel s'

/-- Global leftmost non-overlapping literal replacement (JS `replace` with a
`g`-flagged escaped pattern). -/
def replaceAll (pat rep s : Str) : Str := replaceAllGo pat rep s.length s

/-- Pattern 2 of `removeFolderNamesFromFilename`:
`cleanedName.replace(new RegExp(sep + tok + sep, 'g'), sep)` — every interior
occurrence `sep tok sep` collapses to a single `sep`. -/
def collapseMiddle (tok : Str) (sep : Char) (s : Str) : Str :=
  replaceAll ([sep] ++ tok ++ [sep]) [sep] s

/-- One iteration of the source's `do … while` body, in source order:
start pattern, then end pattern, then middle pattern. -/
def cleanStep (tok : Str) (sep : Char) (s : Str) : Str :=
  collapseMiddle tok sep (stripTrailing tok sep (stripLeading tok sep s))

/-- The `do { … } while (cleanedName !== previousName)` loop: iterate
`cleanStep` to a fixed point.  Fuel: every productive iteration strictly
shrinks the string (proved in `cleanStep_length_lt`), so `s.length + 1`
iterations always reach the fixed point. -/
def cleanFixGo (tok : Str) (sep : Char) : Nat → Str → Str
  | 0, s => s
  | fuel + 1, s =>
    let s' := cleanStep tok sep s
    if s' = s then s else cleanFixGo tok sep fuel s'

/-- Fixed-point iteration of `cleanStep`, with sufficient fuel. -/
def cleanFix (tok : Str) (sep : Char) (s : Str) : Str :=
  cleanFixGo tok sep (s.length + 1) s

/-- Stable insertion of a token into a list sorted by descending length:
the element moves past exactly the strictly longer ones, as JS's stable
`Array.sort((a, b) => b.length - a.length)` arranges. -/
def insertByLenDesc (t : Str) : List Str → List Str
  | [] => [t]
  | u :: rest => if t.length < u.length then u :: insertByLenDesc t rest else t :: u :: rest

/-- `Array.from(folderNames).sort((a, b) => b.length - a.length)` — stable
sort by descending token length. -/
def sortByLenDesc : List Str → List Str
  | [] => []
  | t :: rest => insertByLenDesc t (sortByLenDesc rest)

/-- `cleanedName.replace(new RegExp(sep + '{2,}', 'g'), sep)` — each maximal
run of two or more separators becomes a single separator (runs of length one
are untouched, which coincides with mapping every maximal run to one
separator). -/
def collapseSeps (sep : Char) : Str → Str
  | [] => []
  | [c] => [c]
  | a :: b :: rest =>
    if a = sep ∧ b = sep then collapseSeps sep (b :: rest)
    else a :: collapseSeps sep (b :: rest)

/-- `cleanedName.replace(new RegExp('^' + sep + '+|' + sep + '+$', 'g'), '')`
— remove the leading run and the trailing run of separators. -/
def trimSeps (sep : Char) (s : Str) : Str :=
  (((s.dropWhile (· = sep)).reverse).dropWhile (· = sep)).reverse

/-- `CleanGenerator.removeFolderNamesFromFilename(filename, folderNames)`:
sort the tokens by descending length, iterate each token's three removal
patterns to a fixed point, then collapse separator runs, trim edge
separators, and fall back to the literal `"unnamed"` when empty.  The
separator (`config.conventions?.separatorChar || '-'`) is a parameter. -/
def removeFolderNamesFromFilename (filename : Str) (folderNames : List Str) (sep : Char) : Str :=
  let sorted := sortByLenDesc folderNames
  let afterTokens := sorted.foldl (fun acc t => cleanFix t sep acc) filename
  let collapsed := collapseSeps sep afterTokens
  let trimmed := trimSeps sep collapsed
  if trimmed = [] then str "unnamed" else trimmed

end CleanGen

namespace OrganizeGen

/-- JS `Array.prototype.join(sep)` with a one-character separator string. -/
def joinSep (sep : Char) : List Str → Str
  | [] => []
  | [x] => x
  | x :: rest => x ++ sep :: joinSep sep rest

/-- `OrganizeGenerator.addFolderStructureToFilename(filename, pathParts,
baseAssetName, separatorChar)`: push `baseAssetName` when truthy (a nonempty
string), then all `pathParts`, then the stem, and join with the separator. -/
def addFolderStructureToFilename (filename : Str) (pathParts : List Str)
    (baseAssetName : Str) (sep : Char) : Str :=
  joinSep sep ((if baseAssetName ≠ [] then [baseAssetName] else []) ++ pathParts ++ [filename])

/-- `OrganizeGenerator.isAlreadyOrganized(filename, pathParts, baseAssetName,
separatorChar)`: does the filename start with the expected organized
prefix (the structure applied to the empty stem)? -/
def isAlreadyOrganized (filename : Str) (pathParts : List Str)
    (baseAssetName : Str) (sep : Char) : Bool :=
  (addFolderStructureToFilename [] pathParts baseAssetName sep).isPrefixOf filename

end OrganizeGen

/-- Node `path.extname` on a plain file name (both generators apply it to
`basename(filePath)`): the suffix starting at the last `'.'`, empty when
there is no dot or when the only dot is the leading character (dotfiles).
The directory entries `'.'`/`'..'` never reach this function — the walker
recurses into directories instead of treating them as files. -/
def extname (s : Str) : Str :=
  let k := (s.reverse.takeWhile (fun c => c ≠ '.')).length
  if k + 1 < s.length then s.drop (s.length - (k + 1)) else []

/-- `basename(originalFilename, extension)`: the stem, i.e. the file name
with its `extname` suffix removed. -/
def stemOf (s : Str) : Str := s.take (s.length - (extname s).length)

/-- JS `String.prototype.split(sep)` for a one-character separator. -/
def splitOnChar (c : Char) : Str → List Str
  | [] => [[]]
  | a :: rest =>
    match splitOnChar c rest with
    | [] => [[]]
    | h :: t => if a = c then [] :: h :: t else (a :: h) :: t

/-- JS `String.prototype.replace(stringPattern, '')`: remove the first
occurrence of a literal pattern (a string pattern replaces only once). -/
def removeFirstOcc (pat : Str) : Str → Str
  | [] => []
  | a :: rest =>
    if pat ≠ [] ∧ pat.isPrefixOf (a :: rest) then (a :: rest).drop pat.length
    else a :: removeFirstOcc pat rest

/-- The record a successful per-file rename produces (the fields consumed by
reporting; the path fields are recomposable from `directory` and the names). -/
structure RenameResult where
  assetDir : Str
  directory : Str
  originalName : Str
  newName : Str
deriving DecidableEq, Repr

/-- `cleanSingleFile`'s token-list computation: the folders a file's stem is
cleaned against are the directory segments of its own path relative to its
asset root (`directory.replace(assetDir.path, '').replace(/^\/+/, '')`,
split on `/`, empty parts dropped). -/
def actualFoldersOf (assetDirPath directory : Str) : List Str :=
  let relativePath := (removeFirstOcc assetDirPath directory).dropWhile (· = '/')
  if relativePath = [] then [] else (splitOnChar '/' relativePath).filter (· ≠ [])

/-- `organizeSingleFile`'s path-part computation from
`path.relative(assetDir.path, directory)`. -/
def pathPartsOf (relativePath : Str) : List Str :=
  if relativePath = str "." then [] else (splitOnChar '/' relativePath).filter (· ≠ [])

/-- `CleanGenerator.cleanSingleFile`, filesystem effects reified: the result
is the list of attempted `fs.rename` calls (old name, new name) together
with the record returned when the rename succeeds.  `directory` is
`dirname(filePath)` and `originalFilename` is `basename(filePath)`. -/
def cleanSingleFile (directory originalFilename : Str) (assetDirName assetDirPath : Str)
    (allFolderNames : List Str) (sep : Char) :
    List (Str × Str) × Option RenameResult :=
  let extension := extname originalFilename
  let nameWithoutExt := stemOf originalFilename
  let foldersToRemove := assetDirName :: actualFoldersOf assetDirPath directory
  let cleanedName := CleanGen.removeFolderNamesFromFilename nameWithoutExt foldersToRemove sep
  if cleanedName = nameWithoutExt then ([], none)
  else
    let newFilename := cleanedName ++ extension
    ([(originalFilename, newFilename)],
      some ⟨assetDirName, directory, originalFilename, newFilename⟩)

/-- `OrganizeGenerator.organizeSingleFile`, filesystem effects reified as in
`cleanSingleFile`.  `relativePath` is the external collaborator value
`path.relative(assetDir.path, directory)`. -/
def organizeSingleFile (relativePath originalFilename : Str) (assetDirName : Str)
    (directory : Str) (sep : Char) :
    List (Str × Str) × Option RenameResult :=
  let extension := extname originalFilename
  let nameWithoutExt := stemOf originalFilename
  let newNameWithoutExt :=
    OrganizeGen.addFolderStructureToFilename nameWithoutExt (pathPartsOf relativePath)
      assetDirName sep
  if newNameWithoutExt = nameWithoutExt then ([], none)
  else
    let newFilename := newNameWithoutExt ++ extension
    ([(originalFilename, newFilename)],
      some ⟨assetDirName, directory, originalFilename, newFilename⟩)

/-- A configured asset root (`assetDirectories` entry). -/
structure AssetDir where
  name : Str
  path : Str
  enabled : Bool
deriving DecidableEq, Repr

/-- The `Promise.allSettled` aggregation boundary of `CleanGenerator.generate`
(lines 36–71), with the per-root settlement as a parameter: `outcome d` is
how the promise `cleanFilenamesInDirectory(d, …)` settles (`.ok files` =
fulfilled, `.error e` = rejected).  Fulfilled results are appended to
`processedFiles` and rejected ones are pushed on the `errors` list, in root
order.  The actual per-root function (`cleanFilenamesInDirectory` below)
catches every error and always fulfills, so in the composed pipeline
(`generate` below) the rejected branch is dead code — the parameter form
only embeds the aggregation boundary itself. -/
def generateClean (dirs : List AssetDir)
    (outcome : AssetDir → Except Str (List RenameResult)) :
    List RenameResult × List (Str × Str) :=
  let enabledDirs := dirs.filter (·.enabled)
  if enabledDirs = [] then ([], [])
  else
    enabledDirs.foldl
      (fun acc d =>
        match outcome d with
        | .ok files => (acc.1 ++ files, acc.2)
        | .error e => (acc.1, acc.2 ++ [(d.name, e)]))
      ([], [])

/-- One directory listing as the recursive walker sees it, as a sequence of
entries: `fileEntry name rest` is a plain file followed by the remaining
entries, `subdirEntry name contents rest` a subdirectory (with its own
listing `contents`) followed by the remaining entries, `nilDir` the end of
the listing, and `unreadable` a directory whose `fs.readdir` throws
(missing or inaccessible path).  `unreadable` is meaningful at the head of
a listing; in tail position (not produced by the intended encoding) it
behaves as an empty tail. -/
inductive DirTree where
  | unreadable : DirTree
  | nilDir : DirTree
  | fileEntry (name : Str) (rest : DirTree) : DirTree
  | subdirEntry (name : Str) (contents : DirTree) (rest : DirTree) : DirTree

/-- `CleanGenerator.isAssetFile`: the extension, lowercased and without its
leading dot, is a member of the configured supported-extension list. -/
def isAssetFile (supportedExtensions : List Str) (filename : Str) : Bool :=
  supportedExtensions.contains (((extname filename).map Char.toLower).drop 1)

/-- `CleanGenerator.processDirectoryRecursive` (lines 133–152): walk one
directory listing in order; recurse into subdirectories (with
`join(dirPath, name)`), clean each asset file and keep the non-null
results.  A `readdir` failure is caught inside (lines 149–151): a warning
is logged, that directory contributes nothing, and the walk never throws.
The per-file `fs.rename` is assumed to succeed (a failed rename is caught
per file, yields null and the walk continues — claim C8's concern). -/
def processDirectoryRecursive (assetDir : AssetDir) (allFolderNames : List Str)
    (supportedExtensions : List Str) (sep : Char) : Str → DirTree → List RenameResult
  | _, .unreadable => []
  | _, .nilDir => []
  | dirPath, .fileEntry name rest =>
    (if isAssetFile supportedExtensions name then
      match (cleanSingleFile dirPath name assetDir.name assetDir.path allFolderNames sep).2 with
      | some r => [r]
      | none => []
     else [])
    ++ processDirectoryRecursive assetDir allFolderNames supportedExtensions sep dirPath rest
  | dirPath, .subdirEntry name contents rest =>
    processDirectoryRecursive assetDir allFolderNames supportedExtensions sep
        (dirPath ++ '/' :: name) contents
      ++ processDirectoryRecursive assetDir allFolderNames supportedExtensions sep dirPath rest

/-- `CleanGenerator.cleanFilenamesInDirectory` (lines 118–128): run the walk
inside `try { … } catch { log }` and return the accumulated
`processedFiles` either way.  The walker already converts every `readdir`
failure into a warning and an empty contribution, and even a thrown error
would be caught here with the files accumulated so far returned — so the
per-root promise always fulfills (`.ok`); a root whose path does not exist
fulfills with `[]`. -/
def cleanFilenamesInDirectory (assetDir : AssetDir) (allFolderNames : List Str)
    (supportedExtensions : List Str) (sep : Char) (tree : DirTree) :
    Except Str (List RenameResult) :=
  .ok (processDirectoryRecursive assetDir allFolderNames supportedExtensions sep
    assetDir.path tree)

/-- `CleanGenerator.collectFolderNamesRecursive` (lines 99–113): every
directory entry name found at any depth; a `readdir` failure is ignored. -/
def collectFolderNamesRecursive : DirTree → List Str
  | .unreadable => []
  | .nilDir => []
  | .fileEntry _ rest => collectFolderNamesRecursive rest
  | .subdirEntry name contents rest =>
    name :: (collectFolderNamesRecursive contents ++ collectFolderNamesRecursive rest)

/-- `CleanGenerator.collectAllFolderNames` (lines 79–94): every root's
declared name plus all folder names found under it.  The JS accumulates
into a `Set` (deduplicating); the embedding keeps a list because the
collection's only consumer is `cleanSingleFile`, which ignores it
(claim C6), so deduplication is irrelevant to every downstream use. -/
def collectAllFolderNames (dirs : List AssetDir) (fsOf : AssetDir → DirTree) : List Str :=
  dirs.flatMap (fun d => d.name :: collectFolderNamesRecursive (fsOf d))

/-- `CleanGenerator.generate` (lines 19–74), composed end to end over an
abstract filesystem `fsOf` (each root's directory tree): filter the enabled
roots (empty ⇒ return immediately), collect the folder names, then settle
every root through `cleanFilenamesInDirectory` and aggregate with
`generateClean`. -/
def generate (dirs : List AssetDir) (supportedExtensions : List Str) (sep : Char)
    (fsOf : AssetDir → DirTree) : List RenameResult × List (Str × Str) :=
  let enabledDirs := dirs.filter (·.enabled)
  if enabledDirs = [] then ([], [])
  else
    let allFolderNames := collectAllFolderNames enabledDirs fsOf
    generateClean dirs
      (fun d => cleanFilenamesInDirectory d allFolderNames supportedExtensions sep (fsOf d))

/-- Concrete roots for the C9 exemplar: two enabled roots, the second of
which has a missing path. -/
def cexDirs : List AssetDir :=
  [⟨str "root-a", str "assets/root-a", true⟩, ⟨str "bad", str "assets/bad", true⟩]

/-- Concrete filesystem for the C9 exemplar: the `bad` root's path does not
exist (`readdir` throws); the other root holds one asset file. -/
def cexFs (d : AssetDir) : DirTree :=
  if d.name = str "bad" then .unreadable
  else .fileEntry (str "root-a-logo.svg") .nilDir

/-! ### Lemmas: the global replacement operator -/

namespace CleanGen

theorem replaceAllGo_nil (pat rep : Str) (f : Nat) : replaceAllGo pat rep f [] = [] := by
  cases f with
  | zero => rfl
  | succ f =>
    simp only [replaceAllGo]
    rw [if_neg]
    rintro ⟨hne, hpre⟩
    exact hne (List.prefix_nil.mp (List.isPrefixOf_iff_prefix.mp hpre))

theorem replaceAllGo_fuel_irrel (pat rep : Str) (hp : pat ≠ []) :
    ∀ f₁ f₂ s, s.length ≤ f₁ → s.length ≤ f₂ →
      replaceAllGo pat rep f₁ s = replaceAllGo pat rep f₂ s := by
  intro f₁
  induction f₁ with
  | zero =>
    intro f₂ s h1 _
    have : s = [] := List.eq_nil_of_length_eq_zero (Nat.le_zero.mp h1)
    subst this
    rw [replaceAllGo_nil, replaceAllGo_nil]
  | succ f₁ ih =>
    intro f₂ s h1 h2
    cases f₂ with
    | zero =>
      have : s = [] := List.eq_nil_of_length_eq_zero (Nat.le_zero.mp h2)
      subst this
      rw [replaceAllGo_nil, replaceAllGo_nil]
    | succ f₂ =>
      simp only [replaceAllGo]
      by_cases hc : pat ≠ [] ∧ pat.isPrefixOf s
      · rw [if_pos hc, if_pos hc]
        have hple : 1 ≤ pat.length := by
          cases pat with
          | nil => exact absurd rfl hc.1
          | cons a l => simp
        have hdl : (s.drop pat.length).length ≤ f₁ := by
          rw [List.length_drop]
          omega
        have hdl2 : (s.drop pat.length).length ≤ f₂ := by
          rw [List.length_drop]
          omega
        rw [ih f₂ _ hdl hdl2]
      · rw [if_neg hc, if_neg hc]
        cases s with
        | nil => rfl
        | cons c s' =>
          simp only [List.length_cons] at h1 h2
          show c :: replaceAllGo pat rep f₁ s' = c :: replaceAllGo pat rep f₂ s'
          rw [ih f₂ s' (by omega) (by omega)]

theorem replaceAll_nil (pat rep : Str) : replaceAll pat rep [] = [] := by
  simp [replaceAll, replaceAllGo_nil]

/-- Unfolding: a match at the front is replaced and scanning resumes after it. -/
theorem replaceAll_pos (pat rep s : Str) (hp : pat ≠ []) (h : pat <+: s) :
    replaceAll pat rep s = rep ++ replaceAll pat rep (s.drop pat.length) := by
  have hple : 1 ≤ pat.length := by
    cases pat with
    | nil => exact absurd rfl hp
    | cons a l => simp
  have hlen : 1 ≤ s.length := Nat.le_trans hple h.length_le
  unfold replaceAll
  cases hs : s with
  | nil => simp [hs] at hlen
  | cons c s' =>
    simp only [List.length_cons, replaceAllGo]
    rw [if_pos ⟨hp, List.isPrefixOf_iff_prefix.mpr (hs ▸ h)⟩]
    have : ((c :: s').drop pat.length).length ≤ s'.length := by
      rw [List.length_drop]
      simp only [List.length_cons]
      omega
    rw [replaceAllGo_fuel_irrel pat rep hp s'.length ((c :: s').drop pat.length).length _ this
      (Nat.le_refl _)]

/-- Unfolding: no match at the front, the head character is copied. -/
theorem replaceAll_neg (pat rep : Str) (c : Char) (s' : Str) (h : ¬ pat <+: (c :: s')) :
    replaceAll pat rep (c :: s') = c :: replaceAll pat rep s' := by
  unfold replaceAll
  simp only [List.length_cons, replaceAllGo]
  rw [if_neg (by rintro ⟨-, hpre⟩; exact h (List.isPrefixOf_iff_prefix.mp hpre))]

/-- With the empty pattern the guard is never taken: the scan copies the
string unchanged (matches the source, whose patterns always contain `sep`). -/
theorem replaceAllGo_empty_pat (rep : Str) :
    ∀ f s, replaceAllGo [] rep f s = s := by
  intro f
  induction f with
  | zero => intro s; rfl
  | succ f ih =>
    intro s
    simp only [replaceAllGo]
    rw [if_neg (by rintro ⟨hne, -⟩; exact hne rfl)]
    cases s with
    | nil => rfl
    | cons c s' =>
      show c :: replaceAllGo [] rep f s' = c :: s'
      rw [ih s']

theorem replaceAllGo_length_le (pat rep : Str) (hrp : rep.length ≤ pat.length) :
    ∀ f s, (replaceAllGo pat rep f s).length ≤ s.length := by
  intro f
  induction f with
  | zero => intro s; exact Nat.le_refl _
  | succ f ih =>
    intro s
    simp only [replaceAllGo]
    by_cases hc : pat ≠ [] ∧ pat.isPrefixOf s
    · rw [if_pos hc]
      have hsl : pat.length ≤ s.length :=
        (List.isPrefixOf_iff_prefix.mp hc.2).length_le
      have := ih (s.drop pat.length)
      rw [List.length_append]
      rw [List.length_drop] at this
      omega
    · rw [if_neg hc]
      cases s with
      | nil => exact Nat.le_refl _
      | cons c s' =>
        show (c :: replaceAllGo pat rep f s').length ≤ (c :: s').length
        simp only [List.length_cons]
        exact Nat.succ_le_succ (ih s')

theorem replaceAll_length_le (pat rep : Str) (hrp : rep.length ≤ pat.length) (s : Str) :
    (replaceAll pat rep s).length ≤ s.length :=
  replaceAllGo_length_le pat rep hrp s.length s

theorem replaceAllGo_eq_self_of_not (pat rep : Str) :
    ∀ f s, ¬ pat <:+: s → replaceAllGo pat rep f s = s := by
  intro f
  induction f with
  | zero => intro s _; rfl
  | succ f ih =>
    intro s h
    simp only [replaceAllGo]
    rw [if_neg (by
      rintro ⟨-, hpre⟩
      exact h (List.isPrefixOf_iff_prefix.mp hpre).isInfix)]
    cases s with
    | nil => rfl
    | cons c s' =>
      show c :: replaceAllGo pat rep f s' = c :: s'
      rw [ih s' (fun hi => h (List.infix_cons_iff.mpr (Or.inr hi)))]

theorem replaceAll_eq_self_of_not (pat rep s : Str) (h : ¬ pat <:+: s) :
    replaceAll pat rep s = s :=
  replaceAllGo_eq_self_of_not pat rep s.length s h

theorem replaceAllGo_length_lt (pat rep : Str) (hp : pat ≠ [])
    (hrp : rep.length < pat.length) :
    ∀ f s, s.length ≤ f → pat <:+: s → (replaceAllGo pat rep f s).length < s.length := by
  intro f
  induction f with
  | zero =>
    intro s hf hi
    have : s = [] := List.eq_nil_of_length_eq_zero (Nat.le_zero.mp hf)
    subst this
    exact absurd (List.eq_nil_of_infix_nil hi) hp
  | succ f ih =>
    intro s hf hi
    simp only [replaceAllGo]
    by_cases hc : pat ≠ [] ∧ pat.isPrefixOf s
    · rw [if_pos hc]
      have hsl : pat.length ≤ s.length :=
        (List.isPrefixOf_iff_prefix.mp hc.2).length_le
      have hgo := replaceAllGo_length_le pat rep (Nat.le_of_lt hrp) f (s.drop pat.length)
      rw [List.length_append]
      rw [List.length_drop] at hgo
      omega
    · rw [if_neg hc]
      cases s with
      | nil => exact absurd (List.eq_nil_of_infix_nil hi) hp
      | cons c s' =>
        show (c :: replaceAllGo pat rep f s').length < (c :: s').length
        have hnp : ¬ pat <+: (c :: s') := by
          intro hpre
          exact hc ⟨hp, List.isPrefixOf_iff_prefix.mpr hpre⟩
        have hi' : pat <:+: s' := by
          rcases List.infix_cons_iff.mp hi with h | h
          · exact absurd h hnp
          · exact h
        simp only [List.length_cons] at hf ⊢
        exact Nat.succ_lt_succ (ih s' (by omega) hi')

theorem replaceAll_length_lt (pat rep s : Str) (hp : pat ≠ [])
    (hrp : rep.length < pat.length) (hi : pat <:+: s) :
    (replaceAll pat rep s).length < s.length :=
  replaceAllGo_length_lt pat rep hp hrp s.length s (Nat.le_refl _) hi

theorem replaceAll_eq_self_iff (pat rep s : Str) (hp : pat ≠ [])
    (hrp : rep.length < pat.length) :
    replaceAll pat rep s = s ↔ ¬ pat <:+: s := by
  constructor
  · intro he hi
    have := replaceAll_length_lt pat rep s hp hrp hi
    rw [he] at this
    exact Nat.lt_irrefl _ this
  · exact replaceAll_eq_self_of_not pat rep s

/-! ### Lemmas: the anchored patterns -/

theorem stripLeading_pos (tok : Str) (sep : Char) (s : Str) (h : (tok ++ [sep]) <+: s) :
    stripLeading tok sep s = s.drop (tok.length + 1) := by
  unfold stripLeading
  rw [if_pos (List.isPrefixOf_iff_prefix.mpr h)]

theorem stripLeading_neg (tok : Str) (sep : Char) (s : Str) (h : ¬ (tok ++ [sep]) <+: s) :
    stripLeading tok sep s = s := by
  unfold stripLeading
  rw [if_neg (fun hb => h (List.isPrefixOf_iff_prefix.mp hb))]

theorem stripLeading_decomp (tok : Str) (sep : Char) (s : Str) (h : (tok ++ [sep]) <+: s) :
    s = (tok ++ [sep]) ++ stripLeading tok sep s := by
  rw [stripLeading_pos tok sep s h]
  have := List.prefix_iff_eq_append.mp h
  conv_lhs => rw [← this]
  congr 1
  simp

theorem stripLeading_length_le (tok : Str) (sep : Char) (s : Str) :
    (stripLeading tok sep s).length ≤ s.length := by
  unfold stripLeading
  split
  · simp
  · exact Nat.le_refl _

theorem stripLeading_eq_self_iff (tok : Str) (sep : Char) (s : Str) :
    stripLeading tok sep s = s ↔ ¬ (tok ++ [sep]) <+: s := by
  constructor
  · intro he h
    have hlen : tok.length + 1 ≤ s.length := by
      have := h.length_le
      simpa using this
    rw [stripLeading_pos tok sep s h] at he
    have := congrArg List.length he
    rw [List.length_drop] at this
    omega
  · exact stripLeading_neg tok sep s

theorem stripTrailing_pos (tok : Str) (sep : Char) (s : Str) (h : ([sep] ++ tok) <:+ s) :
    stripTrailing tok sep s = s.take (s.length - (tok.length + 1)) := by
  unfold stripTrailing
  rw [if_pos (List.isSuffixOf_iff_suffix.mpr h)]

theorem stripTrailing_neg (tok : Str) (sep : Char) (s : Str) (h : ¬ ([sep] ++ tok) <:+ s) :
    stripTrailing tok sep s = s := by
  unfold stripTrailing
  rw [if_neg (fun hb => h (List.isSuffixOf_iff_suffix.mp hb))]

theorem stripTrailing_decomp (tok : Str) (sep : Char) (s : Str) (h : ([sep] ++ tok) <:+ s) :
    s = stripTrailing tok sep s ++ ([sep] ++ tok) := by
  rw [stripTrailing_pos tok sep s h]
  have := List.suffix_iff_eq_append.mp h
  conv_lhs => rw [← this]
  congr 2

theorem stripTrailing_length_le (tok : Str) (sep : Char) (s : Str) :
    (stripTrailing tok sep s).length ≤ s.length := by
  unfold stripTrailing
  split
  · simp
  · exact Nat.le_refl _

theorem stripTrailing_eq_self_iff (tok : Str) (sep : Char) (s : Str) :
    stripTrailing tok sep s = s ↔ ¬ ([sep] ++ tok) <:+ s := by
  constructor
  · intro he h
    have hlen : tok.length + 1 ≤ s.length := by
      have := h.length_le
      simpa [Nat.add_comm] using this
    rw [stripTrailing_pos tok sep s h] at he
    have := congrArg List.length he
    rw [List.length_take] at this
    omega
  · exact stripTrailing_neg tok sep s

/-! ### Lemmas: one loop iteration and its fixed point -/

/-- None of the three removal patterns of a token occurs in the stem:
no leading `tok sep`, no trailing `sep tok`, no interior `sep tok sep`. -/
def NoPat (tok : Str) (sep : Char) (s : Str) : Prop :=
  ¬ ((tok ++ [sep]) <+: s) ∧ ¬ (([sep] ++ tok) <:+ s) ∧ ¬ (([sep] ++ tok ++ [sep]) <:+: s)

theorem midPat_ne_nil (tok : Str) (sep : Char) : ([sep] ++ tok ++ [sep] : Str) ≠ [] := by
  simp

theorem midPat_length (tok : Str) (sep : Char) :
    ([sep] ++ tok ++ [sep] : Str).length = tok.length + 2 := by
  simp only [List.length_append, List.length_cons, List.length_nil]
  omega

theorem sepRep_length_lt (tok : Str) (sep : Char) :
    ([sep] : Str).length < ([sep] ++ tok ++ [sep] : Str).length := by
  rw [midPat_length]
  simp only [List.length_cons, List.length_nil]
  omega

theorem collapseMiddle_eq_self_iff (tok : Str) (sep : Char) (s : Str) :
    collapseMiddle tok sep s = s ↔ ¬ ([sep] ++ tok ++ [sep]) <:+: s := by
  unfold collapseMiddle
  exact replaceAll_eq_self_iff _ _ s (midPat_ne_nil tok sep) (sepRep_length_lt tok sep)

theorem collapseMiddle_length_le (tok : Str) (sep : Char) (s : Str) :
    (collapseMiddle tok sep s).length ≤ s.length := by
  unfold collapseMiddle
  exact replaceAll_length_le _ _ (Nat.le_of_lt (sepRep_length_lt tok sep)) s

theorem cleanStep_length_le (tok : Str) (sep : Char) (s : Str) :
    (cleanStep tok sep s).length ≤ s.length := by
  unfold cleanStep
  calc (collapseMiddle tok sep (stripTrailing tok sep (stripLeading tok sep s))).length
      ≤ (stripTrailing tok sep (stripLeading tok sep s)).length :=
        collapseMiddle_length_le _ _ _
    _ ≤ (stripLeading tok sep s).length := stripTrailing_length_le _ _ _
    _ ≤ s.length := stripLeading_length_le _ _ _

theorem stripLeading_length_lt (tok : Str) (sep : Char) (s : Str)
    (h : stripLeading tok sep s ≠ s) : (stripLeading tok sep s).length < s.length := by
  have hpre : (tok ++ [sep]) <+: s := by
    by_contra hnp
    exact h (stripLeading_neg tok sep s hnp)
  have hlen : tok.length + 1 ≤ s.length := by simpa using hpre.length_le
  rw [stripLeading_pos tok sep s hpre, List.length_drop]
  omega

theorem stripTrailing_length_lt (tok : Str) (sep : Char) (s : Str)
    (h : stripTrailing tok sep s ≠ s) : (stripTrailing tok sep s).length < s.length := by
  have hsuf : ([sep] ++ tok) <:+ s := by
    by_contra hns
    exact h (stripTrailing_neg tok sep s hns)
  have hlen : tok.length + 1 ≤ s.length := by
    simpa [Nat.add_comm] using hsuf.length_le
  rw [stripTrailing_pos tok sep s hsuf, List.length_take]
  omega

theorem cleanStep_eq_self_iff (tok : Str) (sep : Char) (s : Str) :
    cleanStep tok sep s = s ↔ NoPat tok sep s := by
  constructor
  · intro he
    have hstep : collapseMiddle tok sep (stripTrailing tok sep (stripLeading tok sep s)) = s :=
      he
    have has : stripLeading tok sep s = s := by
      by_contra hne
      have halen := stripLeading_length_lt tok sep s hne
      have h2 := stripTrailing_length_le tok sep (stripLeading tok sep s)
      have h3 :=
        collapseMiddle_length_le tok sep (stripTrailing tok sep (stripLeading tok sep s))
      have hcl := congrArg List.length hstep
      omega
    rw [has] at hstep
    have hbs : stripTrailing tok sep s = s := by
      by_contra hne
      have hblen := stripTrailing_length_lt tok sep s hne
      have h3 := collapseMiddle_length_le tok sep (stripTrailing tok sep s)
      have hcl := congrArg List.length hstep
      omega
    rw [hbs] at hstep
    exact ⟨(stripLeading_eq_self_iff tok sep s).mp has,
      (stripTrailing_eq_self_iff tok sep s).mp hbs,
      (collapseMiddle_eq_self_iff tok sep s).mp hstep⟩
  · rintro ⟨h1, h2, h3⟩
    unfold cleanStep
    rw [stripLeading_neg tok sep s h1, stripTrailing_neg tok sep s h2]
    exact (collapseMiddle_eq_self_iff tok sep s).mpr h3

theorem cleanStep_length_lt (tok : Str) (sep : Char) (s : Str) (h : cleanStep tok sep s ≠ s) :
    (cleanStep tok sep s).length < s.length := by
  by_cases has : stripLeading tok sep s = s
  · by_cases hbs : stripTrailing tok sep s = s
    · unfold cleanStep at h ⊢
      rw [has, hbs] at h ⊢
      have hi : ([sep] ++ tok ++ [sep]) <:+: s := by
        by_contra hni
        exact h ((collapseMiddle_eq_self_iff tok sep s).mpr hni)
      exact replaceAll_length_lt _ _ s (midPat_ne_nil tok sep) (sepRep_length_lt tok sep) hi
    · unfold cleanStep
      rw [has]
      calc (collapseMiddle tok sep (stripTrailing tok sep s)).length
          ≤ (stripTrailing tok sep s).length := collapseMiddle_length_le _ _ _
        _ < s.length := stripTrailing_length_lt tok sep s hbs
  · calc (cleanStep tok sep s).length
        ≤ (stripTrailing tok sep (stripLeading tok sep s)).length :=
          collapseMiddle_length_le _ _ _
      _ ≤ (stripLeading tok sep s).length := stripTrailing_length_le _ _ _
      _ < s.length := stripLeading_length_lt tok sep s has

theorem cleanFixGo_fix (tok : Str) (sep : Char) :
    ∀ f s, s.length + 1 ≤ f →
      cleanStep tok sep (cleanFixGo tok sep f s) = cleanFixGo tok sep f s := by
  intro f
  induction f with
  | zero => intro s hf; omega
  | succ f ih =>
    intro s hf
    simp only [cleanFixGo]
    by_cases h : cleanStep tok sep s = s
    · rw [if_pos h]
      exact h
    · rw [if_neg h]
      have := cleanStep_length_lt tok sep s h
      exact ih (cleanStep tok sep s) (by omega)

theorem cleanFix_fix (tok : Str) (sep : Char) (s : Str) :
    cleanStep tok sep (cleanFix tok sep s) = cleanFix tok sep s :=
  cleanFixGo_fix tok sep (s.length + 1) s (Nat.le_refl _)

theorem cleanFixGo_eq_self (tok : Str) (sep : Char) (s : Str)
    (h : cleanStep tok sep s = s) : ∀ f, cleanFixGo tok sep f s = s := by
  intro f
  cases f with
  | zero => rfl
  | succ f => simp only [cleanFixGo]; rw [if_pos h]

theorem cleanFix_of_noPat (tok : Str) (sep : Char) (s : Str) (h : NoPat tok sep s) :
    cleanFix tok sep s = s :=
  cleanFixGo_eq_self tok sep s ((cleanStep_eq_self_iff tok sep s).mpr h) _

theorem noPat_cleanFix (tok : Str) (sep : Char) (s : Str) :
    NoPat tok sep (cleanFix tok sep s) :=
  (cleanStep_eq_self_iff tok sep _).mp (cleanFix_fix tok sep s)

/-! ### Lemmas: occurrences across an edit junction

Every edit the cleaner performs replaces a pattern bordered by separators
(or removes it together with one bordering separator at an end of the
string).  For a separator-free token `u`, an occurrence of one of `u`'s
patterns in the edited string always pulls back to an occurrence in the
original string, because `u` cannot straddle the separator written at the
junction. -/

/-- An infix occurrence in `A ++ [c]` either uses the final character (then
it is a suffix) or lies inside `A`. -/
theorem occ_in_concat (p A : Str) (c : Char) (h : p <:+: A ++ [c]) :
    p <:+ (A ++ [c]) ∨ p <:+: A := by
  obtain ⟨L, R, hLR⟩ := h
  rcases List.eq_nil_or_concat R with rfl | ⟨R', d, rfl⟩
  · left
    exact ⟨L, by simpa using hLR⟩
  · right
    have h' : (L ++ p ++ R') ++ [d] = A ++ [c] := by simpa [List.append_assoc] using hLR
    have := List.append_inj' h' rfl
    exact ⟨L, R', this.1⟩

/-- A prefix occurrence of `u ++ [sep]` in `A ++ [sep] ++ B` is already a
prefix occurrence in `A ++ [sep]`, provided `u` is separator-free. -/
theorem occ_cross_pre (u A B : Str) (sep : Char) (hu : sep ∉ u)
    (h : (u ++ [sep]) <+: (A ++ [sep] ++ B)) : (u ++ [sep]) <+: (A ++ [sep]) := by
  obtain ⟨R, hR⟩ := h
  have hR' : u ++ ([sep] ++ R) = A ++ ([sep] ++ B) := by
    simpa [List.append_assoc] using hR
  rcases List.append_eq_append_iff.mp hR' with ⟨m, hm1, hm2⟩ | ⟨m, hm1, hm2⟩
  · -- A = u ++ m
    cases m with
    | nil =>
      rw [List.append_nil] at hm1
      rw [hm1]
    | cons c m' =>
      simp only [List.cons_append, List.nil_append] at hm2
      injection hm2 with hc hm2'
      subst hc
      rw [hm1]
      exact ⟨m' ++ [sep], by simp⟩
  · -- u = A ++ m
    cases m with
    | nil =>
      rw [List.append_nil] at hm1
      rw [← hm1]
    | cons c m' =>
      simp only [List.cons_append, List.nil_append] at hm2
      injection hm2 with hc hm2'
      subst hc
      exact absurd (by rw [hm1]; simp : sep ∈ u) hu

/-- A suffix occurrence of `[sep] ++ u` in `A ++ [sep] ++ B` is already a
suffix occurrence in `[sep] ++ B`, provided `u` is separator-free. -/
theorem occ_cross_suf (u A B : Str) (sep : Char) (hu : sep ∉ u)
    (h : ([sep] ++ u) <:+ (A ++ [sep] ++ B)) : ([sep] ++ u) <:+ ([sep] ++ B) := by
  obtain ⟨L, hL⟩ := h
  have hL' : L ++ ([sep] ++ u) = A ++ ([sep] ++ B) := by
    simpa [List.append_assoc] using hL
  rcases List.append_eq_append_iff.mp hL' with ⟨m, hm1, hm2⟩ | ⟨m, hm1, hm2⟩
  · -- A = L ++ m and [sep] ++ u = m ++ ([sep] ++ B)
    cases m with
    | nil =>
      rw [List.nil_append] at hm2
      rw [hm2]
    | cons c m' =>
      simp only [List.cons_append, List.nil_append] at hm2
      injection hm2 with hc hm2'
      subst hc
      exact absurd (by rw [hm2']; simp : sep ∈ u) hu
  · -- L = A ++ m and [sep] ++ B = m ++ ([sep] ++ u)
    exact ⟨m, hm2.symm⟩

/-- An interior occurrence of `[sep] ++ u ++ [sep]` in `A ++ [sep] ++ B`
lies within `A ++ [sep]` or within `[sep] ++ B`, provided `u` is
separator-free: it cannot properly straddle the junction separator. -/
theorem occ_cross_mid (u A B : Str) (sep : Char) (hu : sep ∉ u)
    (h : ([sep] ++ u ++ [sep]) <:+: (A ++ [sep] ++ B)) :
    ([sep] ++ u ++ [sep]) <:+: (A ++ [sep]) ∨ ([sep] ++ u ++ [sep]) <:+: ([sep] ++ B) := by
  obtain ⟨L, R, hLR⟩ := h
  have h1 : L ++ (([sep] ++ u ++ [sep]) ++ R) = A ++ ([sep] ++ B) := by
    simpa [List.append_assoc] using hLR
  rcases List.append_eq_append_iff.mp h1 with ⟨m, hm1, hm2⟩ | ⟨m, hm1, hm2⟩
  · -- A = L ++ m and P ++ R = m ++ ([sep] ++ B)
    rcases List.append_eq_append_iff.mp hm2 with ⟨w, hw1, hw2⟩ | ⟨w, hw1, hw2⟩
    · -- m = P ++ w and R = w ++ ([sep] ++ B): occurrence inside A
      left
      have hPA : ([sep] ++ u ++ [sep]) <:+: A :=
        ⟨L, w, by rw [hm1, hw1]; simp [List.append_assoc]⟩
      exact hPA.trans ⟨[], [sep], by simp⟩
    · -- P = m ++ w and [sep] ++ B = w ++ R
      cases w with
      | nil =>
        -- P = m, so A = L ++ P: the occurrence lies inside A
        left
        rw [List.append_nil] at hw1
        exact ⟨L, [sep], by rw [hm1, ← hw1]⟩
      | cons c w' =>
        simp only [List.cons_append, List.nil_append] at hw2
        injection hw2 with hc hw2'
        subst hc
        -- P = m ++ (sep :: w')
        cases m with
        | nil =>
          -- the occurrence starts exactly at the junction separator
          right
          rw [List.nil_append] at hm2
          exact ⟨[], R, by rw [← hm2]; simp [List.append_assoc]⟩
        | cons c₀ m'' =>
          have hP : (sep :: (u ++ [sep]) : Str) = c₀ :: (m'' ++ (sep :: w')) := by
            simpa [List.append_assoc] using hw1
          injection hP with hc₀ hP'
          subst hc₀
          -- u ++ [sep] = m'' ++ (sep :: w')
          have hP'' : u ++ ([sep] : Str) = m'' ++ ([sep] ++ w') := by simpa using hP'
          rcases List.append_eq_append_iff.mp hP'' with ⟨v, hv1, hv2⟩ | ⟨v, hv1, hv2⟩
          · -- m'' = u ++ v and [sep] = v ++ ([sep] ++ w')
            have hlen := congrArg List.length hv2
            simp only [List.length_append, List.length_cons, List.length_nil] at hlen
            have hv : v = [] := List.eq_nil_of_length_eq_zero (by omega)
            have hw'nil : w' = [] := List.eq_nil_of_length_eq_zero (by omega)
            subst hv
            subst hw'nil
            rw [List.append_nil] at hv1
            -- m = sep :: u: the occurrence ends at the junction separator
            left
            exact ⟨L, [], by rw [hm1, hv1]; simp [List.append_assoc]⟩
          · -- u = m'' ++ v and sep :: w' = v ++ [sep]
            cases v with
            | nil =>
              simp only [List.nil_append] at hv2
              have hv2' : (sep :: w' : Str) = [sep] := by simpa using hv2.symm
              injection hv2' with hww hw'nil
              subst hw'nil
              rw [List.append_nil] at hv1
              left
              exact ⟨L, [], by rw [hm1, ← hv1]; simp [List.append_assoc]⟩
            | cons d v' =>
              simp only [List.cons_append, List.nil_append] at hv2
              injection hv2 with hd hv2'
              subst hd
              exact absurd (by rw [hv1]; simp : sep ∈ u) hu
  · -- L = A ++ m and [sep] ++ B = m ++ (P ++ R): occurrence inside [sep] ++ B
    right
    exact ⟨m, R, by rw [hm2]; simp [List.append_assoc]⟩

/-! ### Lemmas: preservation of pattern-freeness under later edits -/

/-- One interior replacement `A ++ sep tok sep ++ B  ⟶  A ++ sep ++ B`
preserves the absence of a separator-free token's patterns. -/
theorem noPat_repl_step (u tok : Str) (sep : Char) (hu : sep ∉ u) (A B : Str)
    (h : NoPat u sep (A ++ ([sep] ++ tok ++ [sep]) ++ B)) : NoPat u sep (A ++ [sep] ++ B) := by
  have h5 : (A ++ [sep]) <+: (A ++ ([sep] ++ tok ++ [sep]) ++ B) :=
    ⟨tok ++ [sep] ++ B, by simp [List.append_assoc]⟩
  have h6 : ([sep] ++ B) <:+ (A ++ ([sep] ++ tok ++ [sep]) ++ B) :=
    ⟨A ++ [sep] ++ tok, by simp [List.append_assoc]⟩
  refine ⟨?_, ?_, ?_⟩
  · intro hp
    exact h.1 ((occ_cross_pre u A B sep hu hp).trans h5)
  · intro hs
    exact h.2.1 ((occ_cross_suf u A B sep hu hs).trans h6)
  · intro hi
    rcases occ_cross_mid u A B sep hu hi with hi' | hi'
    · exact h.2.2 (hi'.trans h5.isInfix)
    · exact h.2.2 (hi'.trans h6.isInfix)

theorem noPat_stripLeading (u tok : Str) (sep : Char) (hu : sep ∉ u) (s : Str)
    (h : NoPat u sep s) : NoPat u sep (stripLeading tok sep s) := by
  by_cases hpre : (tok ++ [sep]) <+: s
  · have hdec := stripLeading_decomp tok sep s hpre
    refine ⟨?_, ?_, ?_⟩
    · intro hp
      obtain ⟨w, hw⟩ := hp
      refine h.2.2 ⟨tok, w, ?_⟩
      rw [hdec, ← hw]
      simp [List.append_assoc]
    · intro hs
      refine h.2.1 (hs.trans ⟨tok ++ [sep], hdec.symm⟩)
    · intro hi
      have hsuf2 : (stripLeading tok sep s) <:+ s := ⟨tok ++ [sep], hdec.symm⟩
      exact h.2.2 (hi.trans hsuf2.isInfix)
  · rw [stripLeading_neg tok sep s hpre]
    exact h

theorem noPat_stripTrailing (u tok : Str) (sep : Char) (hu : sep ∉ u) (s : Str)
    (h : NoPat u sep s) : NoPat u sep (stripTrailing tok sep s) := by
  by_cases hsuf : ([sep] ++ tok) <:+ s
  · have hdec := stripTrailing_decomp tok sep s hsuf
    refine ⟨?_, ?_, ?_⟩
    · intro hp
      refine h.1 (hp.trans ⟨[sep] ++ tok, hdec.symm⟩)
    · intro hs
      obtain ⟨w, hw⟩ := hs
      refine h.2.2 ⟨w, tok, ?_⟩
      rw [hdec, ← hw]
      simp [List.append_assoc]
    · intro hi
      have hpre2 : (stripTrailing tok sep s) <+: s := ⟨[sep] ++ tok, hdec.symm⟩
      exact h.2.2 (hi.trans hpre2.isInfix)
  · rw [stripTrailing_neg tok sep s hsuf]
    exact h

/-- A single leftmost replacement step: some occurrence of `pat` is replaced
by `rep` in context. -/
def ReplRel (pat rep : Str) (s s' : Str) : Prop :=
  ∃ A B, s = A ++ pat ++ B ∧ s' = A ++ rep ++ B

theorem replRel_lift (pat rep C : Str) (s s' : Str) (h : ReplRel pat rep s s') :
    ReplRel pat rep (C ++ s) (C ++ s') := by
  obtain ⟨A, B, h1, h2⟩ := h
  exact ⟨C ++ A, B, by rw [h1]; simp [List.append_assoc], by rw [h2]; simp [List.append_assoc]⟩

theorem replRel_chain_go (pat rep : Str) (hp : pat ≠ []) :
    ∀ f s, Relation.ReflTransGen (ReplRel pat rep) s (replaceAllGo pat rep f s) := by
  intro f
  induction f with
  | zero => intro s; exact Relation.ReflTransGen.refl
  | succ f ih =>
    intro s
    simp only [replaceAllGo]
    by_cases hc : pat ≠ [] ∧ pat.isPrefixOf s
    · rw [if_pos hc]
      have hpre := List.isPrefixOf_iff_prefix.mp hc.2
      have hdec : s = pat ++ s.drop pat.length := by
        have := List.prefix_iff_eq_append.mp hpre
        rw [← this]
        congr 1
        simp
      have hstep : ReplRel pat rep s (rep ++ s.drop pat.length) :=
        ⟨[], s.drop pat.length, by simpa using hdec, by simp⟩
      refine Relation.ReflTransGen.head hstep ?_
      exact (ih (s.drop pat.length)).lift (fun x => rep ++ x)
        (fun a b hab => replRel_lift pat rep rep a b hab)
    · rw [if_neg hc]
      cases s with
      | nil => exact Relation.ReflTransGen.refl
      | cons c s' =>
        show Relation.ReflTransGen (ReplRel pat rep) (c :: s') (c :: replaceAllGo pat rep f s')
        have := (ih s').lift (fun x => [c] ++ x)
          (fun a b hab => replRel_lift pat rep [c] a b hab)
        simpa using this

theorem replRel_chain (pat rep s : Str) (hp : pat ≠ []) :
    Relation.ReflTransGen (ReplRel pat rep) s (replaceAll pat rep s) :=
  replRel_chain_go pat rep hp s.length s

theorem noPat_of_replRel (u tok : Str) (sep : Char) (hu : sep ∉ u) (s s' : Str)
    (hr : ReplRel ([sep] ++ tok ++ [sep]) [sep] s s') (h : NoPat u sep s) :
    NoPat u sep s' := by
  obtain ⟨A, B, h1, h2⟩ := hr
  rw [h2]
  rw [h1] at h
  exact noPat_repl_step u tok sep hu A B h

theorem noPat_of_replRel_chain (u tok : Str) (sep : Char) (hu : sep ∉ u) (s s' : Str)
    (hr : Relation.ReflTransGen (ReplRel ([sep] ++ tok ++ [sep]) [sep]) s s')
    (h : NoPat u sep s) : NoPat u sep s' := by
  induction hr with
  | refl => exact h
  | tail hab hbc ih => exact noPat_of_replRel u tok sep hu _ _ hbc ih

theorem noPat_collapseMiddle (u tok : Str) (sep : Char) (hu : sep ∉ u) (s : Str)
    (h : NoPat u sep s) : NoPat u sep (collapseMiddle tok sep s) :=
  noPat_of_replRel_chain u tok sep hu s _
    (replRel_chain _ [sep] s (midPat_ne_nil tok sep)) h

theorem noPat_cleanStep (u tok : Str) (sep : Char) (hu : sep ∉ u) (s : Str)
    (h : NoPat u sep s) : NoPat u sep (cleanStep tok sep s) :=
  noPat_collapseMiddle u tok sep hu _
    (noPat_stripTrailing u tok sep hu _ (noPat_stripLeading u tok sep hu s h))

theorem noPat_cleanFixGo (u tok : Str) (sep : Char) (hu : sep ∉ u) :
    ∀ f s, NoPat u sep s → NoPat u sep (cleanFixGo tok sep f s) := by
  intro f
  induction f with
  | zero => intro s h; exact h
  | succ f ih =>
    intro s h
    simp only [cleanFixGo]
    by_cases he : cleanStep tok sep s = s
    · rw [if_pos he]; exact h
    · rw [if_neg he]
      exact ih _ (noPat_cleanStep u tok sep hu s h)

theorem noPat_cleanFix_pres (u tok : Str) (sep : Char) (hu : sep ∉ u) (s : Str)
    (h : NoPat u sep s) : NoPat u sep (cleanFix tok sep s) :=
  noPat_cleanFixGo u tok sep hu _ s h

theorem noPat_foldl_pres (u : Str) (sep : Char) (hu : sep ∉ u) :
    ∀ (ts : List Str) (s : Str), NoPat u sep s →
      NoPat u sep (ts.foldl (fun acc t => cleanFix t sep acc) s) := by
  intro ts
  induction ts with
  | nil => intro s h; exact h
  | cons t rest ih =>
    intro s h
    exact ih (cleanFix t sep s) (noPat_cleanFix_pres u t sep hu s h)

/-- After the token loop, every separator-free token in the processed list
has none of its patterns left in the string. -/
theorem foldl_noPat_all (sep : Char) :
    ∀ (ts : List Str), (∀ t ∈ ts, sep ∉ t) → ∀ (s : Str), ∀ u ∈ ts,
      NoPat u sep (ts.foldl (fun acc t => cleanFix t sep acc) s) := by
  intro ts
  induction ts with
  | nil => intro _ s u hu; exact absurd hu (List.not_mem_nil u)
  | cons t rest ih =>
    intro hts s u hu
    simp only [List.foldl_cons]
    rcases List.mem_cons.mp hu with rfl | hur
    · exact noPat_foldl_pres u sep (hts u hu) rest (cleanFix u sep s)
        (noPat_cleanFix u sep s)
    · exact ih (fun v hv => hts v (List.mem_cons_of_mem t hv)) (cleanFix t sep s) u hur

/-! ### Lemmas: the final collapse and trim stages -/

theorem collapse_cons_pos (sep : Char) (a b : Char) (rest : Str) (hab : a = sep ∧ b = sep) :
    collapseSeps sep (a :: b :: rest) = collapseSeps sep (b :: rest) := by
  simp only [collapseSeps]
  rw [if_pos hab]

theorem collapse_cons_neg (sep : Char) (a b : Char) (rest : Str) (hab : ¬ (a = sep ∧ b = sep)) :
    collapseSeps sep (a :: b :: rest) = a :: collapseSeps sep (b :: rest) := by
  simp only [collapseSeps]
  rw [if_neg hab]

theorem collapse_chain_go (sep : Char) :
    ∀ n s, s.length ≤ n →
      Relation.ReflTransGen (ReplRel ([sep] ++ [] ++ [sep]) [sep]) s (collapseSeps sep s) := by
  intro n
  induction n with
  | zero =>
    intro s h
    have : s = [] := List.eq_nil_of_length_eq_zero (Nat.le_zero.mp h)
    subst this
    exact Relation.ReflTransGen.refl
  | succ n ih =>
    intro s hlen
    match s with
    | [] => exact Relation.ReflTransGen.refl
    | [c] => exact Relation.ReflTransGen.refl
    | a :: b :: rest =>
      have hlen' : (b :: rest).length ≤ n := by
        simp only [List.length_cons] at hlen ⊢
        omega
      by_cases hab : a = sep ∧ b = sep
      · rw [collapse_cons_pos sep a b rest hab]
        have hstep : ReplRel ([sep] ++ [] ++ [sep]) [sep] (a :: b :: rest) (b :: rest) :=
          ⟨[], rest, by simp [hab.1, hab.2], by simp [hab.2]⟩
        exact Relation.ReflTransGen.head hstep (ih (b :: rest) hlen')
      · rw [collapse_cons_neg sep a b rest hab]
        have := (ih (b :: rest) hlen').lift
          (fun x => [a] ++ x) (fun x y hxy => replRel_lift _ _ [a] x y hxy)
        simpa using this

theorem collapse_chain (sep : Char) (s : Str) :
    Relation.ReflTransGen (ReplRel ([sep] ++ [] ++ [sep]) [sep]) s (collapseSeps sep s) :=
  collapse_chain_go sep s.length s (Nat.le_refl _)

theorem noPat_collapseSeps (u : Str) (sep : Char) (hu : sep ∉ u) (s : Str)
    (h : NoPat u sep s) : NoPat u sep (collapseSeps sep s) :=
  noPat_of_replRel_chain u [] sep hu s _ (collapse_chain sep s) h

/-- The trim stage splits the string into a leading separator run, the
trimmed core, and a trailing separator run. -/
theorem trimSeps_decomp (sep : Char) (s : Str) :
    ∃ T R, s = T ++ trimSeps sep s ++ R ∧ (∀ c ∈ T, c = sep) ∧ (∀ c ∈ R, c = sep) := by
  refine ⟨s.takeWhile (· = sep), ((s.dropWhile (· = sep)).reverse.takeWhile (· = sep)).reverse,
    ?_, ?_, ?_⟩
  · have h1 : s = s.takeWhile (· = sep) ++ s.dropWhile (· = sep) :=
      (List.takeWhile_append_dropWhile (· = sep) s).symm
    have h2 : s.dropWhile (· = sep) = trimSeps sep s ++
        ((s.dropWhile (· = sep)).reverse.takeWhile (· = sep)).reverse := by
      conv_lhs => rw [← List.reverse_reverse (s.dropWhile (· = sep))]
      conv_lhs =>
        rw [← List.takeWhile_append_dropWhile (· = sep) (s.dropWhile (· = sep)).reverse]
      rw [List.reverse_append]
      rfl
    rw [h2] at h1
    exact h1.trans (List.append_assoc _ _ _).symm
  · intro c hc
    have := List.mem_takeWhile_imp hc
    simpa using this
  · intro c hc
    rw [List.mem_reverse] at hc
    have := List.mem_takeWhile_imp hc
    simpa using this

theorem trimSeps_occ (sep : Char) (s : Str) : trimSeps sep s <:+: s := by
  obtain ⟨T, R, hs, -, -⟩ := trimSeps_decomp sep s
  exact ⟨T, R, hs.symm⟩

theorem noPat_trimSeps (u : Str) (sep : Char) (hu : sep ∉ u) (s : Str)
    (h : NoPat u sep s) : NoPat u sep (trimSeps sep s) := by
  obtain ⟨T, R, hs, hT, hR⟩ := trimSeps_decomp sep s
  refine ⟨?_, ?_, ?_⟩
  · intro hp
    obtain ⟨w, hw⟩ := hp
    cases T with
    | nil =>
      refine h.1 ⟨w ++ R, ?_⟩
      rw [hs, ← hw]
      simp [List.append_assoc]
    | cons t₀ T' =>
      have hrep : t₀ :: T' = List.replicate (T'.length + 1) sep := by
        have := List.eq_replicate_of_mem (a := sep) hT
        simpa using this
      have hsplit : t₀ :: T' = List.replicate T'.length sep ++ [sep] := by
        rw [hrep, List.replicate_succ']
      refine h.2.2 ⟨List.replicate T'.length sep, w ++ R, ?_⟩
      rw [hs, hsplit, ← hw]
      simp [List.append_assoc]
  · intro hsu
    obtain ⟨w, hw⟩ := hsu
    cases R with
    | nil =>
      refine h.2.1 ⟨T ++ w, ?_⟩
      rw [hs, ← hw]
      simp [List.append_assoc]
    | cons r₀ R' =>
      have hr₀ : r₀ = sep := hR r₀ (by simp)
      refine h.2.2 ⟨T ++ w, R', ?_⟩
      rw [hs, hr₀, ← hw]
      simp [List.append_assoc]
  · intro hi
    exact h.2.2 (hi.trans (trimSeps_occ sep s))

/-- The head of the collapsed string is the head of the input. -/
theorem collapse_head (sep : Char) :
    ∀ (rest : Str) (a : Char), ∃ tail, collapseSeps sep (a :: rest) = a :: tail := by
  intro rest
  induction rest with
  | nil => intro a; exact ⟨[], rfl⟩
  | cons b rest' ih =>
    intro a
    by_cases hab : a = sep ∧ b = sep
    · obtain ⟨tail, htail⟩ := ih b
      refine ⟨tail, ?_⟩
      rw [collapse_cons_pos sep a b rest' hab, htail, hab.1, hab.2]
    · exact ⟨collapseSeps sep (b :: rest'), collapse_cons_neg sep a b rest' hab⟩

/-- The collapsed string has no two adjacent separators. -/
theorem collapse_noDbl (sep : Char) :
    ∀ n s, s.length ≤ n → ¬ (([sep, sep] : Str) <:+: collapseSeps sep s) := by
  intro n
  induction n with
  | zero =>
    intro s h
    have : s = [] := List.eq_nil_of_length_eq_zero (Nat.le_zero.mp h)
    subst this
    intro hi
    have := List.eq_nil_of_infix_nil hi
    simp at this
  | succ n ih =>
    intro s hlen
    match s with
    | [] =>
      intro hi
      have := List.eq_nil_of_infix_nil hi
      simp at this
    | [c] =>
      intro hi
      have := hi.length_le
      simp [collapseSeps] at this
    | a :: b :: rest =>
      have hlen' : (b :: rest).length ≤ n := by
        simp only [List.length_cons] at hlen ⊢
        omega
      by_cases hab : a = sep ∧ b = sep
      · rw [collapse_cons_pos sep a b rest hab]
        exact ih (b :: rest) hlen'
      · rw [collapse_cons_neg sep a b rest hab]
        intro hi
        rcases List.infix_cons_iff.mp hi with hpre | hin
        · obtain ⟨w, hw⟩ := hpre
          simp only [List.cons_append, List.nil_append] at hw
          injection hw with ha hw'
          obtain ⟨tail, htail⟩ := collapse_head sep rest b
          rw [htail] at hw'
          injection hw' with hb hw''
          exact hab ⟨ha.symm, hb.symm⟩
        · exact ih (b :: rest) hlen' hin

theorem collapse_eq_self_of_noDbl (sep : Char) :
    ∀ n s, s.length ≤ n → ¬ (([sep, sep] : Str) <:+: s) → collapseSeps sep s = s := by
  intro n
  induction n with
  | zero =>
    intro s h _
    have : s = [] := List.eq_nil_of_length_eq_zero (Nat.le_zero.mp h)
    subst this
    rfl
  | succ n ih =>
    intro s hlen hnd
    match s with
    | [] => rfl
    | [c] => rfl
    | a :: b :: rest =>
      have hlen' : (b :: rest).length ≤ n := by
        simp only [List.length_cons] at hlen ⊢
        omega
      by_cases hab : a = sep ∧ b = sep
      · exfalso
        exact hnd ⟨[], rest, by simp [hab.1, hab.2]⟩
      · rw [collapse_cons_neg sep a b rest hab]
        have hnd' : ¬ (([sep, sep] : Str) <:+: (b :: rest)) := fun hin =>
          hnd (List.infix_cons_iff.mpr (Or.inr hin))
        rw [ih (b :: rest) hlen' hnd']

/-- The trim stage is idempotent. -/
theorem trimSeps_idem (sep : Char) (s : Str) :
    trimSeps sep (trimSeps sep s) = trimSeps sep s := by
  have hbr : ∀ x : Str, trimSeps sep x = List.rdropWhile (· = sep) (x.dropWhile (· = sep)) := by
    intro x
    rfl
  rw [hbr, hbr]
  have hD : List.dropWhile (· = sep)
      (List.rdropWhile (· = sep) (s.dropWhile (· = sep)))
      = List.rdropWhile (· = sep) (s.dropWhile (· = sep)) := by
    rcases hE : List.rdropWhile (· = sep) (s.dropWhile (· = sep)) with _ | ⟨c, cs⟩
    · rfl
    · have hpre := List.rdropWhile_prefix (· = sep) (s.dropWhile (· = sep))
      rw [hE] at hpre
      obtain ⟨w, hw⟩ := hpre
      have hdw : List.dropWhile (· = sep) (s.dropWhile (· = sep)) = s.dropWhile (· = sep) :=
        List.dropWhile_idempotent _ _
      rw [← hw] at hdw
      simp only [List.cons_append] at hdw
      rw [List.dropWhile_cons] at hdw ⊢
      by_cases hc : (c = sep)
      · exfalso
        rw [if_pos (by simpa using hc)] at hdw
        have hlen := congrArg List.length hdw
        have hle : (List.dropWhile (· = sep) (cs ++ w)).length ≤ (cs ++ w).length :=
          (List.dropWhile_suffix (· = sep)).length_le
        simp only [List.length_cons, List.length_append] at hlen hle
        omega
      · rw [if_neg (by simpa using hc)]
  rw [hD, List.rdropWhile_idempotent]

/-! ### Lemmas: the token sort, separator-free strings, and idempotence -/

theorem mem_insertByLenDesc (t x : Str) :
    ∀ l : List Str, (x ∈ insertByLenDesc t l ↔ x = t ∨ x ∈ l) := by
  intro l
  induction l with
  | nil => simp [insertByLenDesc]
  | cons u rest ih =>
    simp only [insertByLenDesc]
    split
    · simp only [List.mem_cons, ih]
      tauto
    · simp

theorem mem_sortByLenDesc (x : Str) :
    ∀ l : List Str, (x ∈ sortByLenDesc l ↔ x ∈ l) := by
  intro l
  induction l with
  | nil => simp [sortByLenDesc]
  | cons t rest ih =>
    simp only [sortByLenDesc, mem_insertByLenDesc, List.mem_cons, ih]

/-- A string not containing the separator has none of any token's patterns. -/
theorem noPat_of_sep_not_mem (tok : Str) (sep : Char) (s : Str) (h : sep ∉ s) :
    NoPat tok sep s := by
  refine ⟨?_, ?_, ?_⟩
  · intro hp
    exact h (hp.subset (by simp))
  · intro hs
    exact h (hs.subset (by simp))
  · intro hi
    exact h (hi.subset (by simp))

theorem collapse_eq_self_of_not_mem (sep : Char) (s : Str) (h : sep ∉ s) :
    collapseSeps sep s = s := by
  refine collapse_eq_self_of_noDbl sep s.length s (Nat.le_refl _) ?_
  intro hi
  exact h (hi.subset (by simp))

theorem dropWhile_sep_eq_self (sep : Char) (s : Str) (h : sep ∉ s) :
    s.dropWhile (· = sep) = s := by
  cases s with
  | nil => rfl
  | cons c cs =>
    rw [List.dropWhile_cons, if_neg]
    simp only [List.mem_cons, not_or] at h
    simpa using fun hc => h.1 hc.symm

theorem trim_eq_self_of_not_mem (sep : Char) (s : Str) (h : sep ∉ s) :
    trimSeps sep s = s := by
  unfold trimSeps
  rw [dropWhile_sep_eq_self sep s h]
  rw [dropWhile_sep_eq_self sep s.reverse (by simpa using h)]
  exact List.reverse_reverse s

theorem foldl_cleanFix_eq_self (sep : Char) :
    ∀ (ts : List Str) (r : Str), (∀ t ∈ ts, NoPat t sep r) →
      ts.foldl (fun acc t => cleanFix t sep acc) r = r := by
  intro ts
  induction ts with
  | nil => intro r _; rfl
  | cons t rest ih =>
    intro r h
    simp only [List.foldl_cons]
    rw [cleanFix_of_noPat t sep r (h t (by simp))]
    exact ih r (fun v hv => h v (List.mem_cons_of_mem t hv))

/-- Unfolding of `removeFolderNamesFromFilename` (the `let`s are definitional). -/
theorem removeFolderNames_eq (s : Str) (tokens : List Str) (sep : Char) :
    removeFolderNamesFromFilename s tokens sep =
      (if trimSeps sep (collapseSeps sep
            ((sortByLenDesc tokens).foldl (fun acc t => cleanFix t sep acc) s)) = []
       then str "unnamed"
       else trimSeps sep (collapseSeps sep
            ((sortByLenDesc tokens).foldl (fun acc t => cleanFix t sep acc) s))) := rfl

/-- A nonempty stem without the separator is a fixed point of the cleaner,
whatever the token set: every removal pattern needs an adjacent separator. -/
theorem clean_of_sep_not_mem (s : Str) (tokens : List Str) (sep : Char)
    (hne : s ≠ []) (h : sep ∉ s) :
    removeFolderNamesFromFilename s tokens sep = s := by
  rw [removeFolderNames_eq]
  rw [foldl_cleanFix_eq_self sep _ s (fun t _ => noPat_of_sep_not_mem t sep s h)]
  rw [collapse_eq_self_of_not_mem sep s h]
  rw [trim_eq_self_of_not_mem sep s h]
  rw [if_neg hne]

/-- A string that is pattern-free for every sorted token, has no doubled
separator, and is trim-fixed, is a fixed point of the cleaner. -/
theorem clean_fixed_output (tokens : List Str) (sep : Char) (r : Str)
    (hne : r ≠ [])
    (hnp : ∀ u ∈ sortByLenDesc tokens, NoPat u sep r)
    (hnd : ¬ (([sep, sep] : Str) <:+: r))
    (htr : trimSeps sep r = r) :
    removeFolderNamesFromFilename r tokens sep = r := by
  rw [removeFolderNames_eq]
  rw [foldl_cleanFix_eq_self sep _ r hnp]
  rw [collapse_eq_self_of_noDbl sep r.length r (Nat.le_refl _) hnd]
  rw [htr]
  rw [if_neg hne]

/-- Idempotence of the cleaner for separator-free tokens and a separator not
occurring in the fallback word `unnamed`. -/
theorem removeFolderNames_idem (s : Str) (tokens : List Str) (sep : Char)
    (htok : ∀ t ∈ tokens, sep ∉ t) (hsep : sep ∉ str "unnamed") :
    removeFolderNamesFromFilename (removeFolderNamesFromFilename s tokens sep) tokens sep
      = removeFolderNamesFromFilename s tokens sep := by
  have hsorted : ∀ t ∈ sortByLenDesc tokens, sep ∉ t := fun t ht =>
    htok t ((mem_sortByLenDesc t tokens).mp ht)
  by_cases hcase : trimSeps sep (collapseSeps sep
      ((sortByLenDesc tokens).foldl (fun acc t => cleanFix t sep acc) s)) = []
  · rw [removeFolderNames_eq s tokens sep, if_pos hcase]
    exact clean_of_sep_not_mem (str "unnamed") tokens sep (by decide) hsep
  · rw [removeFolderNames_eq s tokens sep, if_neg hcase]
    refine clean_fixed_output tokens sep _ hcase ?_ ?_ ?_
    · intro u hu
      have h1 := foldl_noPat_all sep (sortByLenDesc tokens) hsorted s u hu
      have h2 := noPat_collapseSeps u sep (hsorted u hu) _ h1
      exact noPat_trimSeps u sep (hsorted u hu) _ h2
    · intro hi
      exact collapse_noDbl sep
        ((sortByLenDesc tokens).foldl (fun acc t => cleanFix t sep acc) s).length _
        (Nat.le_refl _) (hi.trans (trimSeps_occ sep _))
    · exact trimSeps_idem sep _


end CleanGen


/-! ### Lemmas: file-name splitting, the organizer, the orchestrator -/

/-- The stem/extension split is lossless: the new name built as
`stem ++ extension` rearranges exactly the original characters. -/
theorem stemOf_append_extname (f : Str) : stemOf f ++ extname f = f := by
  unfold stemOf extname
  by_cases h : (f.reverse.takeWhile (fun c => c ≠ '.')).length + 1 < f.length
  · rw [if_pos h]
    have hlen : (f.drop
        (f.length - ((f.reverse.takeWhile (fun c => c ≠ '.')).length + 1))).length
        = (f.reverse.takeWhile (fun c => c ≠ '.')).length + 1 := by
      rw [List.length_drop]
      omega
    rw [hlen]
    have hsub : f.length - ((f.reverse.takeWhile (fun c => c ≠ '.')).length + 1)
        = f.length - ((f.reverse.takeWhile (fun c => c ≠ '.')).length + 1) := rfl
    exact List.take_append_drop _ f
  · rw [if_neg h]
    simp

namespace OrganizeGen

theorem joinSep_cons (sep : Char) (x : Str) (q : List Str) (hq : q ≠ []) :
    joinSep sep (x :: q) = x ++ [sep] ++ joinSep sep q := by
  match q with
  | [] => exact absurd rfl hq
  | y :: q' => simp [joinSep]

theorem joinSep_snoc (sep : Char) :
    ∀ (q : List Str) (x : Str), q ≠ [] →
      joinSep sep (q ++ [x]) = joinSep sep q ++ [sep] ++ x := by
  intro q
  induction q with
  | nil => intro x hq; exact absurd rfl hq
  | cons y q' ih =>
    intro x _
    cases q' with
    | nil => simp [joinSep]
    | cons z q'' =>
      rw [List.cons_append, joinSep_cons sep y (z :: q'' ++ [x]) (by simp),
        joinSep_cons sep y (z :: q'') (by simp), ih x (by simp)]
      simp [List.append_assoc]

theorem joinSep_snoc_length (sep : Char) (q : List Str) (x : Str) (hq : q ≠ []) :
    x.length + 1 ≤ (joinSep sep (q ++ [x])).length := by
  rw [joinSep_snoc sep q x hq]
  simp only [List.length_append, List.length_cons, List.length_nil]
  omega

/-- The prefix list the organizer prepends:
`[baseAssetName if nonempty] ++ pathParts`. -/
def orgParts (pathParts : List Str) (baseAssetName : Str) : List Str :=
  (if baseAssetName ≠ [] then [baseAssetName] else []) ++ pathParts

theorem addFolder_eq_joinSep (filename : Str) (pathParts : List Str)
    (baseAssetName : Str) (sep : Char) :
    addFolderStructureToFilename filename pathParts baseAssetName sep
      = joinSep sep (orgParts pathParts baseAssetName ++ [filename]) := rfl

/-- Re-organizing strictly lengthens the stem whenever a prefix is added. -/
theorem organize_length_grows (s : Str) (pathParts : List Str) (baseAssetName : Str)
    (sep : Char) (h : baseAssetName ≠ [] ∨ pathParts ≠ []) :
    s.length + 1 ≤ (addFolderStructureToFilename s pathParts baseAssetName sep).length := by
  rw [addFolder_eq_joinSep]
  refine joinSep_snoc_length sep _ s ?_
  unfold orgParts
  rcases h with hb | hp
  · rw [if_pos hb]
    simp
  · intro hq
    rcases List.append_eq_nil.mp hq with ⟨-, h2⟩
    exact hp h2

theorem organize_not_idem (s : Str) (pathParts : List Str) (baseAssetName : Str)
    (sep : Char) (h : baseAssetName ≠ [] ∨ pathParts ≠ []) :
    addFolderStructureToFilename (addFolderStructureToFilename s pathParts baseAssetName sep)
      pathParts baseAssetName sep
      ≠ addFolderStructureToFilename s pathParts baseAssetName sep := by
  intro he
  have := organize_length_grows (addFolderStructureToFilename s pathParts baseAssetName sep)
    pathParts baseAssetName sep h
  rw [he] at this
  omega

theorem isAlreadyOrganized_organize (s : Str) (pathParts : List Str) (baseAssetName : Str)
    (sep : Char) (h : baseAssetName ≠ [] ∨ pathParts ≠ []) :
    isAlreadyOrganized (addFolderStructureToFilename s pathParts baseAssetName sep)
      pathParts baseAssetName sep = true := by
  have hq : orgParts pathParts baseAssetName ≠ [] := by
    unfold orgParts
    rcases h with hb | hp
    · rw [if_pos hb]
      simp
    · intro hqe
      rcases List.append_eq_nil.mp hqe with ⟨-, h2⟩
      exact hp h2
  unfold isAlreadyOrganized
  rw [List.isPrefixOf_iff_prefix]
  rw [addFolder_eq_joinSep, addFolder_eq_joinSep]
  rw [joinSep_snoc sep _ _ hq, joinSep_snoc sep _ _ hq]
  exact ⟨s, by simp⟩

end OrganizeGen

/-- `generate`'s aggregation, characterized: in enabled-root order, the
processed files are the concatenation of the fulfilled roots' results and
the error list collects exactly the rejected roots. -/
theorem generateClean_foldl (outcome : AssetDir → Except Str (List RenameResult)) :
    ∀ (l : List AssetDir) (acc : List RenameResult × List (Str × Str)),
      l.foldl
        (fun acc d =>
          match outcome d with
          | .ok files => (acc.1 ++ files, acc.2)
          | .error e => (acc.1, acc.2 ++ [(d.name, e)]))
        acc
      = (acc.1 ++ l.flatMap (fun d => match outcome d with | .ok fs => fs | .error _ => []),
         acc.2 ++ l.filterMap
           (fun d => match outcome d with | .ok _ => none | .error e => some (d.name, e))) := by
  intro l
  induction l with
  | nil => intro acc; simp
  | cons d l ih =>
    intro acc
    simp only [List.foldl_cons, List.flatMap_cons, List.filterMap_cons]
    cases houtcome : outcome d with
    | ok fs => rw [ih]; simp [List.append_assoc]
    | error e => rw [ih]; simp [List.append_assoc]

theorem generateClean_spec (dirs : List AssetDir)
    (outcome : AssetDir → Except Str (List RenameResult)) :
    (generateClean dirs outcome).1
      = (dirs.filter (·.enabled)).flatMap
          (fun d => match outcome d with | .ok fs => fs | .error _ => [])
    ∧ (generateClean dirs outcome).2
      = (dirs.filter (·.enabled)).filterMap
          (fun d => match outcome d with | .ok _ => none | .error e => some (d.name, e)) := by
  unfold generateClean
  by_cases hemp : dirs.filter (·.enabled) = []
  · rw [if_pos hemp, hemp]
    simp
  · rw [if_neg hemp, generateClean_foldl outcome (dirs.filter (·.enabled)) ([], [])]
    simp


namespace CleanGen

/-- Inserting into a descending-by-length sorted list keeps it sorted. -/
theorem pairwise_insertByLenDesc (t : Str) :
    ∀ l : List Str, l.Pairwise (fun a b => b.length ≤ a.length) →
      (insertByLenDesc t l).Pairwise (fun a b => b.length ≤ a.length) := by
  intro l
  induction l with
  | nil => intro _; simp [insertByLenDesc]
  | cons u rest ih =>
    intro h
    rw [List.pairwise_cons] at h
    simp only [insertByLenDesc]
    split
    · rw [List.pairwise_cons]
      constructor
      · intro v hv
        rcases (mem_insertByLenDesc t v rest).mp hv with rfl | hvr
        · omega
        · exact h.1 v hvr
      · exact ih h.2
    · rw [List.pairwise_cons, List.pairwise_cons]
      refine ⟨?_, h.1, h.2⟩
      intro v hv
      rcases List.mem_cons.mp hv with rfl | hvr
      · omega
      · have := h.1 v hvr
        omega

/-- The token sort really is sorted by descending length. -/
theorem sorted_sortByLenDesc :
    ∀ l : List Str, (sortByLenDesc l).Pairwise (fun a b => b.length ≤ a.length) := by
  intro l
  induction l with
  | nil => simp [sortByLenDesc]
  | cons t rest ih => exact pairwise_insertByLenDesc t (sortByLenDesc rest) ih

end CleanGen


/-! ### Claim theorems -/

/-- Claim C1, counterexample: cleaning is not idempotent as stated.  With
separator `-` and folder-name tokens `x-x` (a kebab-case folder name
containing the separator) and `y`, cleaning `a-x-y-x-b` removes `-y-` and
thereby creates a fresh `-x-x-` occurrence that the already-finished `x-x`
pass never revisits; a second clean removes it. -/
theorem claim1_counterexample :
    CleanGen.removeFolderNamesFromFilename
        (CleanGen.removeFolderNamesFromFilename (str "a-x-y-x-b") [str "x-x", str "y"] '-')
        [str "x-x", str "y"] '-'
      ≠ CleanGen.removeFolderNamesFromFilename (str "a-x-y-x-b") [str "x-x", str "y"] '-' := by
  decide

/-- Claim C1, amended: for every stem, token set and separator, cleaning is
idempotent provided no token contains the separator and the separator does
not occur in the fallback word `unnamed` (both hold for the default `-`). -/
theorem claim1_clean_idempotent_amended (s : Str) (tokens : List Str) (sep : Char)
    (htok : ∀ t ∈ tokens, sep ∉ t) (hsep : sep ∉ str "unnamed") :
    CleanGen.removeFolderNamesFromFilename
        (CleanGen.removeFolderNamesFromFilename s tokens sep) tokens sep
      = CleanGen.removeFolderNamesFromFilename s tokens sep :=
  CleanGen.removeFolderNames_idem s tokens sep htok hsep

/-- Claim C1, witness for the amended theorem at a concrete input. -/
theorem claim1_clean_idempotent_amended_witness :
    ((∀ t ∈ [str "x", str "y"], '-' ∉ t) ∧ ('-' ∉ str "unnamed")) ∧
      CleanGen.removeFolderNamesFromFilename
          (CleanGen.removeFolderNamesFromFilename (str "a-x-y-x-b") [str "x", str "y"] '-')
          [str "x", str "y"] '-'
        = CleanGen.removeFolderNamesFromFilename (str "a-x-y-x-b") [str "x", str "y"] '-' :=
  ⟨⟨by decide, by decide⟩,
    claim1_clean_idempotent_amended (str "a-x-y-x-b") [str "x", str "y"] '-'
      (by decide) (by decide)⟩

/-- Claim C2, counterexample: organizing is not idempotent.
`organize("icon", ["home"], "icons")` gives `icons-home-icon`, and
re-organizing that stem prepends the prefix again
(`icons-home-icons-home-icon`). -/
theorem claim2_counterexample :
    OrganizeGen.addFolderStructureToFilename
        (OrganizeGen.addFolderStructureToFilename (str "icon") [str "home"] (str "icons") '-')
        [str "home"] (str "icons") '-'
      ≠ OrganizeGen.addFolderStructureToFilename (str "icon") [str "home"] (str "icons") '-' := by
  decide

/-- Claim C2, amended: `addFolderStructureToFilename` unconditionally
prepends `baseAssetName` and `pathParts`, so whenever either is nonempty,
re-organizing an already-organized stem duplicates the prefix instead of
reproducing the stem; the companion predicate `isAlreadyOrganized` does
recognize an organized stem, but `organizeSingleFile` never consults it.
Only in the trivial case (empty base name and no path parts) is the stem
reproduced unchanged. -/
theorem claim2_organize_reprefix_amended (s : Str) (pathParts : List Str)
    (baseAssetName : Str) (sep : Char) (h : baseAssetName ≠ [] ∨ pathParts ≠ []) :
    OrganizeGen.addFolderStructureToFilename
        (OrganizeGen.addFolderStructureToFilename s pathParts baseAssetName sep)
        pathParts baseAssetName sep
      ≠ OrganizeGen.addFolderStructureToFilename s pathParts baseAssetName sep
    ∧ OrganizeGen.isAlreadyOrganized
        (OrganizeGen.addFolderStructureToFilename s pathParts baseAssetName sep)
        pathParts baseAssetName sep = true
    ∧ OrganizeGen.addFolderStructureToFilename s [] [] sep = s :=
  ⟨OrganizeGen.organize_not_idem s pathParts baseAssetName sep h,
    OrganizeGen.isAlreadyOrganized_organize s pathParts baseAssetName sep h,
    rfl⟩

/-- Claim C2, witness for the amended theorem at a concrete input. -/
theorem claim2_organize_reprefix_amended_witness :
    ((str "icons" : Str) ≠ [] ∨ ([str "home"] : List Str) ≠ []) ∧
      (OrganizeGen.addFolderStructureToFilename
          (OrganizeGen.addFolderStructureToFilename (str "icon") [str "home"] (str "icons") '-')
          [str "home"] (str "icons") '-'
        ≠ OrganizeGen.addFolderStructureToFilename (str "icon") [str "home"] (str "icons") '-'
      ∧ OrganizeGen.isAlreadyOrganized
          (OrganizeGen.addFolderStructureToFilename (str "icon") [str "home"] (str "icons") '-')
          [str "home"] (str "icons") '-' = true
      ∧ OrganizeGen.addFolderStructureToFilename (str "icon") [] [] '-' = str "icon") :=
  ⟨by decide,
    claim2_organize_reprefix_amended (str "icon") [str "home"] (str "icons") '-' (by decide)⟩

/-- Claim C3, counterexample: cleaning the bare stem `icons` with token set
`{icons}` does not produce `unnamed` — no removal pattern matches a token
without an adjacent separator, so the stem is returned unchanged. -/
theorem claim3_counterexample :
    CleanGen.removeFolderNamesFromFilename (str "icons") [str "icons"] '-'
      ≠ str "unnamed" := by
  decide

/-- Claim C3, amended: `clean("icons", {"icons"}, '-')` returns `icons`
unchanged, because every removal pattern requires an adjacent separator;
the `unnamed` fallback fires only when removal and trimming genuinely empty
the stem, e.g. for the stem `icons--icons` with the same token set. -/
theorem claim3_fallback_amended :
    CleanGen.removeFolderNamesFromFilename (str "icons") [str "icons"] '-' = str "icons"
    ∧ CleanGen.removeFolderNamesFromFilename (str "icons--icons") [str "icons"] '-'
        = str "unnamed" := by
  constructor
  · decide
  · decide

/-- Claim C4, counterexample: matching is not case-insensitive.  The
cleaner's regexes carry no `i` flag, so token `icons` does not strip the
leading `Icons-`. -/
theorem claim4_counterexample :
    CleanGen.removeFolderNamesFromFilename (str "Icons-home") [str "icons"] '-'
      ≠ str "home" := by
  decide

/-- Claim C4, amended: matching is case-sensitive and literal (tokens are
escaped, so they match as exact strings): token `icons` strips a leading
`icons-` but leaves `Icons-home` untouched, and token `Icons` leaves
`icons-home` untouched. -/
theorem claim4_case_sensitive_amended :
    CleanGen.removeFolderNamesFromFilename (str "icons-home") [str "icons"] '-' = str "home"
    ∧ CleanGen.removeFolderNamesFromFilename (str "Icons-home") [str "icons"] '-'
        = str "Icons-home"
    ∧ CleanGen.removeFolderNamesFromFilename (str "icons-home") [str "Icons"] '-'
        = str "icons-home" := by
  refine ⟨?_, ?_, ?_⟩ <;> decide

/-- Claim C5: the cleaner sorts tokens by descending length before
processing, and on stem `icons-home` with token set `{icon, icons}` (in
either presentation order) the full token `icons` is removed as a unit,
giving `home` — never a mangled partial result such as `s-home`. -/
theorem claim5_longest_token_first :
    (∀ tokens : List Str,
      (CleanGen.sortByLenDesc tokens).Pairwise (fun a b => b.length ≤ a.length))
    ∧ CleanGen.removeFolderNamesFromFilename (str "icons-home") [str "icon", str "icons"] '-'
        = str "home"
    ∧ CleanGen.removeFolderNamesFromFilename (str "icons-home") [str "icons", str "icon"] '-'
        = str "home"
    ∧ CleanGen.sortByLenDesc [str "icon", str "icons"] = [str "icons", str "icon"] := by
  refine ⟨CleanGen.sorted_sortByLenDesc, ?_, ?_, ?_⟩ <;> decide

/-- Claim C6: the per-file cleaning result is computed from the asset root's
declared name plus the segments of the file's own relative path only — it
is the same whatever global folder-name set is passed in. -/
theorem claim6_path_scoped_tokens (directory originalFilename : Str)
    (assetDirName assetDirPath : Str) (sep : Char) (g₁ g₂ : List Str) :
    cleanSingleFile directory originalFilename assetDirName assetDirPath g₁ sep
      = cleanSingleFile directory originalFilename assetDirName assetDirPath g₂ sep
    ∧ (cleanSingleFile directory originalFilename assetDirName assetDirPath g₁ sep).2
      = (if CleanGen.removeFolderNamesFromFilename (stemOf originalFilename)
              (assetDirName :: actualFoldersOf assetDirPath directory) sep
            = stemOf originalFilename
         then none
         else some ⟨assetDirName, directory, originalFilename,
            CleanGen.removeFolderNamesFromFilename (stemOf originalFilename)
              (assetDirName :: actualFoldersOf assetDirPath directory) sep
              ++ extname originalFilename⟩) := by
  refine ⟨rfl, ?_⟩
  simp only [cleanSingleFile]
  split
  · rfl
  · rfl

/-- Claim C7: for every file either pass renames, the new filename is the
rewritten stem concatenated with the file's original extension, and the
stem/extension split is lossless (`stem ++ ext` recomposes the original
name), so the extension text carried over is exactly the original one. -/
theorem claim7_extension_preserved
    (directory f₁ assetDirName assetDirPath : Str) (g : List Str) (sep₁ : Char)
    (rc : RenameResult)
    (hc : (cleanSingleFile directory f₁ assetDirName assetDirPath g sep₁).2 = some rc)
    (relativePath f₂ assetDirName₂ directory₂ : Str) (sep₂ : Char) (ro : RenameResult)
    (ho : (organizeSingleFile relativePath f₂ assetDirName₂ directory₂ sep₂).2 = some ro) :
    (stemOf f₁ ++ extname f₁ = f₁)
    ∧ rc.newName
        = CleanGen.removeFolderNamesFromFilename (stemOf f₁)
            (assetDirName :: actualFoldersOf assetDirPath directory) sep₁ ++ extname f₁
    ∧ (stemOf f₂ ++ extname f₂ = f₂)
    ∧ ro.newName
        = OrganizeGen.addFolderStructureToFilename (stemOf f₂) (pathPartsOf relativePath)
            assetDirName₂ sep₂ ++ extname f₂ := by
  refine ⟨stemOf_append_extname f₁, ?_, stemOf_append_extname f₂, ?_⟩
  · simp only [cleanSingleFile] at hc
    split at hc
    · exact absurd hc (by simp)
    · have := Option.some.inj hc
      rw [← this]
  · simp only [organizeSingleFile] at ho
    split at ho
    · exact absurd ho (by simp)
    · have := Option.some.inj ho
      rw [← this]

/-- Claim C7, witness at concrete renaming inputs for both passes. -/
theorem claim7_extension_preserved_witness :
    ((cleanSingleFile (str "assets/icons/home") (str "icons-home-icon.svg") (str "icons")
        (str "assets/icons") [] '-').2
      = some ⟨str "icons", str "assets/icons/home", str "icons-home-icon.svg",
          str "icon.svg"⟩)
    ∧ ((organizeSingleFile (str "home") (str "icon.svg") (str "icons")
        (str "assets/icons/home") '-').2
      = some ⟨str "icons", str "assets/icons/home", str "icon.svg",
          str "icons-home-icon.svg"⟩)
    ∧ ((stemOf (str "icons-home-icon.svg") ++ extname (str "icons-home-icon.svg")
          = str "icons-home-icon.svg")
      ∧ (⟨str "icons", str "assets/icons/home", str "icons-home-icon.svg",
            str "icon.svg"⟩ : RenameResult).newName
          = CleanGen.removeFolderNamesFromFilename (stemOf (str "icons-home-icon.svg"))
              (str "icons" :: actualFoldersOf (str "assets/icons") (str "assets/icons/home"))
              '-' ++ extname (str "icons-home-icon.svg")
      ∧ (stemOf (str "icon.svg") ++ extname (str "icon.svg") = str "icon.svg")
      ∧ (⟨str "icons", str "assets/icons/home", str "icon.svg",
            str "icons-home-icon.svg"⟩ : RenameResult).newName
          = OrganizeGen.addFolderStructureToFilename (stemOf (str "icon.svg"))
              (pathPartsOf (str "home")) (str "icons") '-' ++ extname (str "icon.svg")) :=
  ⟨by decide, by decide,
    claim7_extension_preserved (str "assets/icons/home") (str "icons-home-icon.svg")
      (str "icons") (str "assets/icons") [] '-' _ (by decide)
      (str "home") (str "icon.svg") (str "icons") (str "assets/icons/home") '-' _
      (by decide)⟩

/-- Claim C8: in both passes, when the computed new stem equals the old stem
the per-file operation returns `null` and attempts no filesystem rename. -/
theorem claim8_noop_detection
    (directory f assetDirName assetDirPath : Str) (g : List Str) (sep : Char)
    (hc : CleanGen.removeFolderNamesFromFilename (stemOf f)
        (assetDirName :: actualFoldersOf assetDirPath directory) sep = stemOf f)
    (relativePath f₂ assetDirName₂ directory₂ : Str) (sep₂ : Char)
    (ho : OrganizeGen.addFolderStructureToFilename (stemOf f₂) (pathPartsOf relativePath)
        assetDirName₂ sep₂ = stemOf f₂) :
    cleanSingleFile directory f assetDirName assetDirPath g sep = ([], none)
    ∧ organizeSingleFile relativePath f₂ assetDirName₂ directory₂ sep₂ = ([], none) := by
  constructor
  · simp only [cleanSingleFile]
    rw [if_pos hc]
  · simp only [organizeSingleFile]
    rw [if_pos ho]

/-- Claim C8, witness at concrete no-op inputs for both passes. -/
theorem claim8_noop_detection_witness :
    (CleanGen.removeFolderNamesFromFilename (stemOf (str "home.svg"))
        (str "icons" :: actualFoldersOf (str "assets/icons") (str "assets/icons")) '-'
      = stemOf (str "home.svg"))
    ∧ (OrganizeGen.addFolderStructureToFilename (stemOf (str "icon.svg"))
        (pathPartsOf (str ".")) [] '-' = stemOf (str "icon.svg"))
    ∧ (cleanSingleFile (str "assets/icons") (str "home.svg") (str "icons")
        (str "assets/icons") [] '-' = ([], none)
      ∧ organizeSingleFile (str ".") (str "icon.svg") [] (str "assets/icons") '-'
        = ([], none)) :=
  ⟨by decide, by decide,
    claim8_noop_detection (str "assets/icons") (str "home.svg") (str "icons")
      (str "assets/icons") [] '-' (by decide)
      (str ".") (str "icon.svg") [] (str "assets/icons") '-' (by decide)⟩

/-- Claim C9, counterexample: with an enabled root whose path does not
exist (`cexDirs`/`cexFs`: the `bad` root's `readdir` throws), the clean
pass still processes and renames the other root's file, but the error list
comes out empty — the failing root is never "recorded separately in its
error list", because `processDirectoryRecursive` and
`cleanFilenamesInDirectory` catch every error and the per-root promise
fulfills with `[]`. -/
theorem claim9_counterexample :
    (generate cexDirs [str "svg"] '-' cexFs).2 = []
    ∧ (generate cexDirs [str "svg"] '-' cexFs).1
        = [⟨str "root-a", str "assets/root-a", str "root-a-logo.svg", str "logo.svg"⟩] := by
  constructor
  · decide
  · decide

/-- Claim C9, amended: the clean pass never aborts — for every
configuration and filesystem, every enabled root is processed and the
processed files are exactly the concatenation, in root order, of each
enabled root's walk results (so the roots other than a failing one are
always processed); a root whose `readdir` throws contributes no files; and
every per-root settlement is fulfilled (`cleanFilenamesInDirectory`'s
catch-all swallows every error), so no exception escapes the per-root
boundary but the error list is always empty — the failing root is not
recorded in it, and `generate`'s rejected-settlement branch is dead code. -/
theorem claim9_errors_swallowed_amended (dirs : List AssetDir)
    (supportedExtensions : List Str) (sep : Char) (fsOf : AssetDir → DirTree) :
    (generate dirs supportedExtensions sep fsOf).2 = []
    ∧ (generate dirs supportedExtensions sep fsOf).1
        = (dirs.filter (·.enabled)).flatMap
            (fun d => processDirectoryRecursive d
              (collectAllFolderNames (dirs.filter (·.enabled)) fsOf)
              supportedExtensions sep d.path (fsOf d))
    ∧ (∀ (d : AssetDir) (g exts : List Str) (sp : Char) (dirPath : Str),
        processDirectoryRecursive d g exts sp dirPath DirTree.unreadable = [])
    ∧ (∀ (d : AssetDir) (g exts : List Str) (sp : Char) (tree : DirTree),
        ∃ files, cleanFilenamesInDirectory d g exts sp tree = Except.ok files) := by
  refine ⟨?_, ?_, fun d g exts sp dirPath => rfl, fun d g exts sp tree => ⟨_, rfl⟩⟩
  · simp only [generate]
    split
    · rfl
    · rw [(generateClean_spec dirs _).2]
      rw [List.filterMap_eq_nil_iff]
      intro a _
      rfl
  · simp only [generate]
    split
    · rename_i hemp
      rw [hemp]
      simp
    · rw [(generateClean_spec dirs _).1]
      rfl

/-- Claim C10: a nonempty stem that contains no occurrence of the separator
character is returned unchanged by the cleaner for every token set — in
particular a stem exactly equal to a token, with no adjacent separator, is
not removed. -/
theorem claim10_no_separator_no_change (s : Str) (tokens : List Str) (sep : Char)
    (hne : s ≠ []) (h : sep ∉ s) :
    CleanGen.removeFolderNamesFromFilename s tokens sep = s :=
  CleanGen.clean_of_sep_not_mem s tokens sep hne h

/-- Claim C10, witness: the stem `icons` with token set `{icons}` is kept. -/
theorem claim10_no_separator_no_change_witness :
    ((str "icons" : Str) ≠ [] ∧ '-' ∉ str "icons")
    ∧ CleanGen.removeFolderNamesFromFilename (str "icons") [str "icons"] '-' = str "icons" :=
  ⟨⟨by decide, by decide⟩,
    claim10_no_separator_no_change (str "icons") [str "icons"] '-' (by decide) (by decide)⟩
